import Mathlib

/-!
Verification of the Multithreaded-Task-Scheduler (src/MTS.cpp) against its
natural-language specification.

The C++ program is shallowly embedded:
* `MTask` mirrors the `Task` base-class record (name, delayMs, repeating,
  repeatIntervalMs) together with the concrete variant's `execute` body
  (`TaskBody`).
* `TaskExecutor` mirrors the executor state (registered tasks, atomic stop
  flag); `addTask` / `requestStop` mirror the member functions.
* The per-task worker spawned by `runAll` is modelled as a deterministic
  timed process: time is in milliseconds (`Nat`); the stop flag becomes
  visible to workers at time `T`; each call to `execute` takes `E` ms; the
  repeating loop is unrolled with explicit `fuel` (the C++ loop can run
  forever when the stop signal never arrives).
* Machine `int` arithmetic in `ComputeTask::execute` is modelled as `Int`
  with two's-complement wrapping at 32 bits (`int32Wrap`).
* Output is modelled at the granularity of atomic write calls: each
  `operator<<` call emits one contiguous piece.  `coutMutex` is modelled
  as genuine mutual exclusion between its holders only: the pieces of a
  mutex-held emission exclude the other worker's mutex-held writes, but
  not its unprotected `execute`-body writes.
-/

/-- Two's-complement wrapping of an `Int` into the 32-bit `int` range
`[-2^31, 2^31)`, modelling C++ `int` arithmetic. -/
def int32Wrap (x : Int) : Int := (x + 2 ^ 31) % 2 ^ 32 - 2 ^ 31

/-- One iteration of the accumulation loop in `ComputeTask::execute`
(`sum += i;` with `int sum`): add `i` and wrap at 32 bits.  The iteration
counter `k` ranges over `0, 1, …`, so the added term is `k + 1`. -/
def computeStep (s : Int) (k : Nat) : Int := int32Wrap (s + ((k : Int) + 1))

/-- The value of `sum` computed by the loop
`for (int i = 1; i <= limit; ++i) sum += i;` in `ComputeTask::execute`,
for a nonnegative iteration count `n = limit`. -/
def computeRange (n : Nat) : Int := (List.range n).foldl computeStep 0

/-- The value printed by `ComputeTask::execute` for a configured `limit`
(an `int`): no iteration runs when `limit ≤ 0`. -/
def computeSum (limit : Int) : Int := computeRange limit.toNat

/-- The mathematical sum `1 + 2 + ⋯ + n`, the spec's referent
"sum of the integers 1..N". -/
def tri : Nat → Nat
  | 0 => 0
  | n + 1 => tri n + (n + 1)

/-- The `execute` body of a concrete `Task` subclass.  `print`, `wait` and
`compute` are the three reference variants of src/MTS.cpp; `throws` stands
for an arbitrary client subclass of the open virtual interface
`Task::execute` whose body raises an exception with the given message (the
reference variants never do). -/
inductive TaskBody
  | print
  | wait (seconds : Int)
  | compute (limit : Int)
  | throws (msg : String)
deriving DecidableEq, Repr

/-- The atomic output pieces written by one call to `execute`: one piece
per `operator<<` call (`std::endl` writes `"\n"` and flushes).  None of
these writes is performed under `coutMutex`. -/
def execPieces : TaskBody → List String
  | .print => ["PrintTask: Hello World", "\n"]
  | .wait s => ["WaitTask: Sleeping for ", toString s, " seconds", "\n"]
  | .compute n => ["ComputeTask: Sum = ", toString (computeSum n), "\n"]
  | .throws _ => []

/-- The exception (if any) escaping one call to `execute`.  The three
reference variants never throw. -/
def execFault : TaskBody → Option String
  | .print | .wait _ | .compute _ => none
  | .throws m => some m

/-- The `Task` record of src/MTS.cpp: name, initial delay (ms), repeating
flag and repeat interval (ms), all as stored by the setters, plus the
variant's `execute` body. -/
structure MTask where
  name : String
  delayMs : Int := 0
  repeating : Bool := false
  repeatIntervalMs : Int := 0
  body : TaskBody
deriving DecidableEq, Repr

/-- `Task::setDelay(int ms) { delayMs = ms; }` — stores the value verbatim,
with no validation. -/
def MTask.setDelay (t : MTask) (ms : Int) : MTask := { t with delayMs := ms }

/-- `Task::setRepeating(bool flag) { repeating = flag; }`. -/
def MTask.setRepeating (t : MTask) (flag : Bool) : MTask :=
  { t with repeating := flag }

/-- `Task::setRepeatInterval(int ms) { repeatIntervalMs = ms; }` — stores the
value verbatim, with no validation. -/
def MTask.setRepeatInterval (t : MTask) (ms : Int) : MTask :=
  { t with repeatIntervalMs := ms }

/-- The `TaskExecutor` state: the registered task vector and the
`std::atomic<bool> stopRequested` flag (initially `false`).  The
`coutMutex` has no abstract state. -/
structure TaskExecutor where
  tasks : List MTask := []
  stopRequested : Bool := false
deriving DecidableEq, Repr

/-- `TaskExecutor::addTask`: `tasks.push_back(task);` — unconditional
append, no validation of the task's timing configuration. -/
def TaskExecutor.addTask (e : TaskExecutor) (t : MTask) : TaskExecutor :=
  { e with tasks := e.tasks ++ [t] }

/-- `TaskExecutor::requestStop`: `stopRequested.store(true);`. -/
def TaskExecutor.requestStop (e : TaskExecutor) : TaskExecutor :=
  { e with stopRequested := true }

/-- The public operations of `TaskExecutor`.  `runAll` reads `tasks` and
`stopRequested` but writes neither. -/
inductive ExecOp
  | addTask (t : MTask)
  | requestStop
  | runAll
deriving Repr

/-- Effect of one public operation on the executor state.  `runAll` spawns
and joins workers; it never writes `tasks` or `stopRequested`. -/
def applyOp (e : TaskExecutor) : ExecOp → TaskExecutor
  | .addTask t => e.addTask t
  | .requestStop => e.requestStop
  | .runAll => e

/-- Effect of a sequence of public operations. -/
def applyOps (e : TaskExecutor) (ops : List ExecOp) : TaskExecutor :=
  ops.foldl applyOp e

/-- C8: `requestStop` is idempotent — for every `N ≥ 1`, calling it `N`
times yields exactly the state (hence observable effect) of calling it
once. -/
theorem requestStop_idempotent (e : TaskExecutor) (n : Nat) (h : 1 ≤ n) :
    TaskExecutor.requestStop^[n] e = e.requestStop := by
  cases n with
  | zero => exact absurd h (by decide)
  | succ m =>
    rw [Function.iterate_succ_apply]
    exact Function.iterate_fixed rfl m

/-- Witness for C8 at a concrete executor and `n = 3`. -/
theorem requestStop_idempotent_witness :
    1 ≤ 3 ∧
      TaskExecutor.requestStop^[3] { tasks := [], stopRequested := false } =
        TaskExecutor.requestStop { tasks := [], stopRequested := false } :=
  ⟨by decide, requestStop_idempotent { tasks := [], stopRequested := false } 3 (by decide)⟩

/-- C10: the stop signal is monotone — once `requestStop` has set the flag,
no sequence of further public operations ever resets it, so every
subsequent read observes it set. -/
theorem stopRequested_monotone (e : TaskExecutor) (ops : List ExecOp) :
    (applyOps e.requestStop ops).stopRequested = true := by
  induction ops generalizing e with
  | nil => rfl
  | cons op rest ih =>
    cases op with
    | addTask t =>
      show (applyOps ((e.requestStop).addTask t) rest).stopRequested = true
      have : (e.requestStop).addTask t = (e.addTask t).requestStop := rfl
      rw [this]
      exact ih (e.addTask t)
    | requestStop =>
      show (applyOps ((e.requestStop).requestStop) rest).stopRequested = true
      have : (e.requestStop).requestStop = (e.requestStop).requestStop := rfl
      exact ih e.requestStop
    | runAll =>
      exact ih e

/-!  Timed semantics of the worker spawned by `runAll` for one task.

Time is measured in milliseconds from the worker's spawn.  `T` is the time
at which the stop signal becomes visible to the worker's loads (`T = 0`
when `requestStop` ran before `runAll`); `E` is the duration of one
`execute` call; `fuel` bounds the number of loop iterations the model
unrolls (the C++ loop is unbounded when the signal never arrives). -/

/-- Effective initial wait: `if (task->getDelay() > 0) sleep_for(delay)` —
a nonpositive delay is skipped. -/
def effDelay (t : MTask) : Nat := if t.delayMs > 0 then t.delayMs.toNat else 0

/-- Effective duration of `sleep_for(milliseconds(getRepeatInterval()))`:
`sleep_for` returns immediately on a nonpositive duration. -/
def effInterval (t : MTask) : Nat :=
  if t.repeatIntervalMs > 0 then t.repeatIntervalMs.toNat else 0

/-- Start times of the `execute` calls made by
`while (!stopRequested.load()) { task->execute(); sleep_for(interval); }`
when the loop head is first reached at time `t`: the flag is loaded at the
top of each iteration (visible iff `T ≤ t`), then `execute` runs for `E`,
then the worker sleeps `I`. -/
def loopTimes (fuel t E I T : Nat) : List Nat :=
  match fuel with
  | 0 => []
  | fuel + 1 => if t < T then t :: loopTimes fuel (t + E + I) E I T else []

/-- Time at which the while-loop's load of `stopRequested` observes the
signal and the loop exits (the current time when fuel runs out). -/
def loopExit (fuel t E I T : Nat) : Nat :=
  match fuel with
  | 0 => t
  | fuel + 1 => if t < T then loopExit fuel (t + E + I) E I T else t

/-- Whether the while loop exits within `fuel` iterations. -/
def loopDone (fuel t E I T : Nat) : Bool :=
  match fuel with
  | 0 => false
  | fuel + 1 => if t < T then loopDone fuel (t + E + I) E I T else true

/-- Number of `execute` calls a task's worker performs: the repeating
branch runs the stop-checked loop from the end of the initial delay, the
non-repeating branch calls `execute` exactly once. -/
def workerExecCount (t : MTask) (E T fuel : Nat) : Nat :=
  if t.repeating then (loopTimes fuel (effDelay t) E (effInterval t) T).length
  else 1

/-- Per-task `execute` counts of a whole `runAll`: one independent worker
per registered task, none sharing any state but the stop flag. -/
def runCounts (tasks : List MTask) (E T fuel : Nat) : List Nat :=
  tasks.map (fun t => workerExecCount t E T fuel)

/-- The `Printer` task built in `main()`: delay 1000 ms, repeating every
500 ms. -/
def printerTask : MTask :=
  ((({ name := "Printer", body := .print } : MTask).setDelay
    1000).setRepeating true).setRepeatInterval 500

/-- The `Waiter` task built in `main()`: delay 2000 ms, sleeps 2 s,
non-repeating. -/
def waiterTask : MTask :=
  ({ name := "Waiter", body := .wait 2 } : MTask).setDelay 2000

/-- The `Calculator` task built in `main()`: delay 3000 ms, limit 100,
non-repeating. -/
def calculatorTask : MTask :=
  ({ name := "Calculator", body := .compute 100 } : MTask).setDelay 3000

/-- C1 counterexample: when the stop signal is already set before `runAll`
starts (visible from time 0), the repeating `Printer` task of `main()`
performs zero executions, not its claimed first execute — the worker loads
the flag at the top of the `while` loop, before the first `execute`. -/
theorem first_execute_cex :
    printerTask.repeating = true ∧ workerExecCount printerTask 0 0 100 = 0 := by
  constructor
  · rfl
  · decide

/-- C1 (amended): the stop flag is checked at the top of the repeating
loop, before every execution including the first; a repeating worker whose
stop signal is already visible at spawn time (`T = 0`) therefore performs
zero executions, while a non-repeating worker is unaffected and still
executes exactly once. -/
theorem stop_before_runAll (t : MTask) (E fuel : Nat) :
    (t.repeating = true → workerExecCount t E 0 fuel = 0) ∧
    (t.repeating = false → workerExecCount t E 0 fuel = 1) := by
  refine ⟨fun h => ?_, fun h => ?_⟩ <;> unfold workerExecCount <;> rw [h]
  · cases fuel <;> simp [loopTimes]
  · simp

/-- Witness for the amended C1 at the `Printer` and `Waiter` tasks of
`main()`. -/
theorem stop_before_runAll_witness :
    printerTask.repeating = true ∧ workerExecCount printerTask 0 0 100 = 0 ∧
      waiterTask.repeating = false ∧ workerExecCount waiterTask 0 0 100 = 1 :=
  ⟨rfl, (stop_before_runAll printerTask 0 100).1 rfl, rfl,
    (stop_before_runAll waiterTask 0 100).2 rfl⟩

/-- Upper bound on the iterations of the repeating loop: from loop-head
time `t`, at most `⌈(T − t)/I⌉` executions happen before the stop signal
is observed, for any execute duration `E` and any fuel. -/
theorem loopTimes_length_le (E I T : Nat) (hI : 1 ≤ I) :
    ∀ fuel t, (loopTimes fuel t E I T).length ≤ (T - t + I - 1) / I := by
  intro fuel
  induction fuel with
  | zero => intro t; simp [loopTimes]
  | succ n ih =>
    intro t
    unfold loopTimes
    by_cases h : t < T
    · simp only [h, if_true, List.length_cons]
      have h1 := ih (t + E + I)
      have h2 : (T - (t + E + I) + I - 1) / I ≤ (T - (t + I) + I - 1) / I :=
        Nat.div_le_div_right (by omega)
      have h3 : (T - (t + I) + I - 1) / I + 1 ≤ (T - t + I - 1) / I := by
        rcases Nat.le_total T (t + I) with hca | hca
        · have e0 : T - (t + I) = 0 := by omega
          have e1 : (0 + I - 1) / I = 0 := Nat.div_eq_of_lt (by omega)
          rw [e0, e1]
          exact (Nat.one_le_div_iff (by omega)).2 (by omega)
        · have e0 : T - (t + I) + I - 1 = T - t - 1 := by omega
          have e1 : T - t + I - 1 = T - t - 1 + I := by omega
          rw [e0, e1, Nat.add_div_right _ (by omega)]
      omega
    · simp [h]

/-- Every execution of the repeating loop starts strictly before the stop
signal is visible: no `execute` call begins once the signal can be
observed. -/
theorem loopTimes_mem_lt (E I T : Nat) :
    ∀ fuel t s, s ∈ loopTimes fuel t E I T → s < T := by
  intro fuel
  induction fuel with
  | zero => intro t s hs; simp [loopTimes] at hs
  | succ n ih =>
    intro t s hs
    unfold loopTimes at hs
    by_cases h : t < T
    · simp only [h, if_true, List.mem_cons] at hs
      rcases hs with rfl | hs
      · exact h
      · exact ih _ _ hs
    · simp [h] at hs

/-- The load of `stopRequested` that exits the loop happens before
`T + E + I` whenever the loop head is first reached before that bound. -/
theorem loopExit_lt (E I T : Nat) :
    ∀ fuel t, t < T + E + I → loopExit fuel t E I T < T + E + I := by
  intro fuel
  induction fuel with
  | zero => intro t ht; simpa [loopExit] using ht
  | succ n ih =>
    intro t ht
    unfold loopExit
    by_cases h : t < T
    · simp only [h, if_true]
      exact ih _ (by omega)
    · simpa [h] using ht

/-- C5: for a repeating task with positive effective interval `I`, delay
`D` and stop-visibility time `T`: the number of executions is at most
`⌈(T − D)/I⌉ + 1`; no execution starts at or after `T`; and when the
signal arrives after the loop is entered (`D < T`), the loop exits before
`T + E + I` — one in-flight execution plus one interval after the signal
becomes visible. -/
theorem repeating_stop_bound (t : MTask) (E T fuel : Nat)
    (hrep : t.repeating = true) (hI : 1 ≤ effInterval t) :
    workerExecCount t E T fuel ≤
        (T - effDelay t + effInterval t - 1) / effInterval t + 1 ∧
      (∀ s ∈ loopTimes fuel (effDelay t) E (effInterval t) T, s < T) ∧
      (effDelay t < T →
        loopExit fuel (effDelay t) E (effInterval t) T <
          T + E + effInterval t) := by
  refine ⟨?_, fun s hs => loopTimes_mem_lt _ _ _ _ _ _ hs,
    fun hD => loopExit_lt _ _ _ _ _ (by omega)⟩
  unfold workerExecCount
  rw [hrep]
  simp only [if_true]
  exact le_trans (loopTimes_length_le E (effInterval t) T hI fuel (effDelay t))
    (Nat.le_succ _)

/-- Witness for C5 at the `Printer` task of `main()` with the stop signal
visible at 6000 ms. -/
theorem repeating_stop_bound_witness :
    printerTask.repeating = true ∧ 1 ≤ effInterval printerTask ∧
      (workerExecCount printerTask 0 6000 100 ≤
          (6000 - effDelay printerTask + effInterval printerTask - 1) /
              effInterval printerTask + 1 ∧
        (∀ s ∈ loopTimes 100 (effDelay printerTask) 0 (effInterval printerTask)
            6000, s < 6000) ∧
        (effDelay printerTask < 6000 →
          loopExit 100 (effDelay printerTask) 0 (effInterval printerTask) 6000 <
            6000 + 0 + effInterval printerTask)) :=
  ⟨rfl, by decide, repeating_stop_bound printerTask 0 6000 100 rfl (by decide)⟩

/-- Lifecycle events observable from one worker: the serialized
`"[START] name"` and `"[END] name"` emissions, and the `execute` calls in
between. -/
inductive Event
  | start (name : String)
  | exec (name : String)
  | finish (name : String)
deriving DecidableEq, Repr

/-- Recognizer for start events. -/
def isStart : Event → Bool
  | .start _ => true
  | _ => false

/-- Recognizer for end events. -/
def isFinish : Event → Bool
  | .finish _ => true
  | _ => false

/-- Whether a task's worker reaches its terminal state within `fuel` loop
iterations (a non-repeating worker always terminates once its `execute`
returns). -/
def workerDone (t : MTask) (E T fuel : Nat) : Bool :=
  if t.repeating then loopDone fuel (effDelay t) E (effInterval t) T else true

/-- Event trace of one worker in its own program order: the `[START]`
emission, the `execute` calls, and — when the worker terminates — the
`[END]` emission (a repeating worker that never observes the stop signal
never reaches its `[END]` line). -/
def workerTrace (t : MTask) (E T fuel : Nat) : List Event :=
  Event.start t.name ::
    (if t.repeating then
      (loopTimes fuel (effDelay t) E (effInterval t) T).map
          (fun _ => Event.exec t.name) ++
        (if loopDone fuel (effDelay t) E (effInterval t) T then
          [Event.finish t.name]
        else [])
    else [Event.exec t.name, Event.finish t.name])

/-- Counting helper: a trace of the shape
`start :: execs ++ [finish]` has exactly one start and one end event. -/
theorem trace_counts (n : String) (mid : List Event)
    (hmid : ∀ ev ∈ mid, ev = Event.exec n) :
    (Event.start n :: (mid ++ [Event.finish n])).countP isStart = 1 ∧
      (Event.start n :: (mid ++ [Event.finish n])).countP isFinish = 1 := by
  have hs : mid.countP isStart = 0 :=
    List.countP_eq_zero.2 (fun ev hev => by rw [hmid ev hev]; simp [isStart])
  have hf : mid.countP isFinish = 0 :=
    List.countP_eq_zero.2 (fun ev hev => by rw [hmid ev hev]; simp [isFinish])
  constructor <;>
    simp [List.countP_cons, List.countP_append, hs, hf, isStart, isFinish]

/-- C4: whenever a task's worker terminates, its trace is exactly one
`[START]`, then only `execute` events, then one `[END]`: exactly one start
event, exactly one end event, and the start strictly precedes the end in
the worker's order. -/
theorem worker_one_start_one_end (t : MTask) (E T fuel : Nat)
    (h : workerDone t E T fuel = true) :
    ∃ mid, workerTrace t E T fuel =
        Event.start t.name :: (mid ++ [Event.finish t.name]) ∧
      (∀ ev ∈ mid, ev = Event.exec t.name) ∧
      (workerTrace t E T fuel).countP isStart = 1 ∧
      (workerTrace t E T fuel).countP isFinish = 1 := by
  unfold workerDone at h
  by_cases hr : t.repeating = true
  · rw [if_pos hr] at h
    have hmid : ∀ ev ∈ (loopTimes fuel (effDelay t) E (effInterval t) T).map
        (fun _ => Event.exec t.name), ev = Event.exec t.name := by
      intro ev hev
      rcases List.mem_map.1 hev with ⟨s, _, rfl⟩
      rfl
    have key : workerTrace t E T fuel =
        Event.start t.name ::
          ((loopTimes fuel (effDelay t) E (effInterval t) T).map
              (fun _ => Event.exec t.name) ++ [Event.finish t.name]) := by
      simp [workerTrace, hr, h]
    refine ⟨_, key, hmid, ?_, ?_⟩ <;> rw [key]
    · exact (trace_counts _ _ hmid).1
    · exact (trace_counts _ _ hmid).2
  · have hr' : t.repeating = false := by
      cases hb : t.repeating
      · rfl
      · exact absurd hb hr
    have hmid : ∀ ev ∈ [Event.exec t.name], ev = Event.exec t.name := by
      intro ev hev
      simpa using hev
    have key : workerTrace t E T fuel =
        Event.start t.name :: ([Event.exec t.name] ++ [Event.finish t.name]) := by
      simp [workerTrace, hr']
    refine ⟨_, key, hmid, ?_, ?_⟩ <;> rw [key]
    · exact (trace_counts _ _ hmid).1
    · exact (trace_counts _ _ hmid).2

/-- Witness for C4 at the `Printer` task of `main()` with the stop signal
visible at 6000 ms. -/
theorem worker_one_start_one_end_witness :
    workerDone printerTask 0 6000 100 = true ∧
      (∃ mid, workerTrace printerTask 0 6000 100 =
          Event.start printerTask.name :: (mid ++ [Event.finish printerTask.name]) ∧
        (∀ ev ∈ mid, ev = Event.exec printerTask.name) ∧
        (workerTrace printerTask 0 6000 100).countP isStart = 1 ∧
        (workerTrace printerTask 0 6000 100).countP isFinish = 1) :=
  ⟨by decide, worker_one_start_one_end printerTask 0 6000 100 (by decide)⟩

/-- C7: a non-repeating task's worker executes exactly once, wherever the
task sits in the registered list and whatever its siblings do — the
sibling workers' counts are unchanged by its presence and vice versa, for
every execute duration, stop time and fuel. -/
theorem nonrepeating_exec_once (pre post : List MTask) (t : MTask)
    (E T fuel : Nat) (h : t.repeating = false) :
    runCounts (pre ++ t :: post) E T fuel =
      runCounts pre E T fuel ++ 1 :: runCounts post E T fuel := by
  simp [runCounts, workerExecCount, h]

/-- Witness for C7: the `Waiter` task of `main()` between `Printer` and
`Calculator`. -/
theorem nonrepeating_exec_once_witness :
    waiterTask.repeating = false ∧
      runCounts ([printerTask] ++ waiterTask :: [calculatorTask]) 0 6000 100 =
        runCounts [printerTask] 0 6000 100 ++
          1 :: runCounts [calculatorTask] 0 6000 100 :=
  ⟨rfl, nonrepeating_exec_once [printerTask] [calculatorTask] waiterTask
    0 6000 100 rfl⟩

/-- A task a client can freely build with a negative delay:
`setDelay(-5)` stores the value unchecked. -/
def negTask : MTask := ({ name := "Neg", body := .print } : MTask).setDelay (-5)

/-- C2 counterexample: a task whose delay is −5 is not rejected —
`addTask` has no error path and registers it unconditionally, and at run
time the negative delay is silently treated as no wait. -/
theorem addTask_reject_cex :
    negTask.delayMs < 0 ∧
      (TaskExecutor.addTask { tasks := [], stopRequested := false }
        negTask).tasks = [negTask] ∧
      effDelay negTask = 0 :=
  ⟨by decide, rfl, by decide⟩

/-- C2 (amended): `addTask` performs no validation — every task, negative
timing included, is appended unchanged to the registered list; at run time
a nonpositive delay is skipped and a nonpositive repeat interval sleeps
for no time, i.e. negative timing values are silently accepted and behave
as zero rather than being rejected. -/
theorem addTask_no_validation (e : TaskExecutor) (t : MTask) :
    (e.addTask t).tasks = e.tasks ++ [t] ∧
      (t.delayMs ≤ 0 → effDelay t = 0) ∧
      (t.repeatIntervalMs ≤ 0 → effInterval t = 0) := by
  refine ⟨rfl, fun h => ?_, fun h => ?_⟩
  · unfold effDelay
    rw [if_neg (by omega)]
  · unfold effInterval
    rw [if_neg (by omega)]

/-- Witness for the amended C2 at the negative-delay task. -/
theorem addTask_no_validation_witness :
    (TaskExecutor.addTask { tasks := [], stopRequested := false }
        negTask).tasks = [] ++ [negTask] ∧
      negTask.delayMs ≤ 0 ∧ effDelay negTask = 0 ∧
      negTask.repeatIntervalMs ≤ 0 ∧ effInterval negTask = 0 :=
  ⟨(addTask_no_validation { tasks := [], stopRequested := false } negTask).1,
    by decide,
    (addTask_no_validation { tasks := [], stopRequested := false }
      negTask).2.1 (by decide),
    by decide,
    (addTask_no_validation { tasks := [], stopRequested := false }
      negTask).2.2 (by decide)⟩

/-- Result of one worker's thread body: the lambda in `runAll` wraps
`execute` in no try/catch, so an exception thrown by `execute` escapes the
thread function (in C++ an exception escaping a `std::thread` body calls
`std::terminate`). -/
def workerRun (t : MTask) : Except String Unit :=
  match execFault t.body with
  | some msg => .error msg
  | none => .ok ()

/-- Observable completion of `runAll`: its C++ return type is `void`, so
it carries no per-task outcomes, and a fault escaping any worker's thread
body aborts the whole run instead of being recorded. -/
def runAllCode (tasks : List MTask) : Except String Unit :=
  tasks.foldr
    (fun t acc =>
      match workerRun t with
      | .error m => .error m
      | .ok _ => acc)
    (.ok ())

/-- A run over tasks whose `execute` never throws (true of all three
reference variants) completes normally. -/
theorem runAllCode_ok (tasks : List MTask)
    (href : ∀ u ∈ tasks, execFault u.body = none) :
    runAllCode tasks = .ok () := by
  induction tasks with
  | nil => rfl
  | cons u rest ih =>
    have hu : execFault u.body = none := href u (by simp)
    have hstep : runAllCode (u :: rest) = runAllCode rest := by
      unfold runAllCode workerRun
      simp [hu]
    rw [hstep]
    exact ih fun v hv => href v (by simp [hv])

/-- An arbitrary `Task` subclass whose `execute` throws, as any client of
the open virtual interface may supply. -/
def bomberTask : MTask := { name := "Bomber", body := .throws "boom" }

/-- C3 counterexample: registering a single task whose `execute` throws —
the fault is not trapped inside the worker (the thread lambda has no
handler) and `runAll` yields no aggregate of per-task outcomes: the fault
escapes the run, which in C++ terminates the process. -/
theorem runAll_fault_cex :
    execFault bomberTask.body = some "boom" ∧
      runAllCode [bomberTask] = Except.error "boom" :=
  ⟨rfl, rfl⟩

/-- C3 (amended): the reference `runAll` neither traps nor aggregates —
any fault thrown by a registered task's `execute` escapes the worker body
un-trapped and aborts the run, while a run consisting only of tasks whose
`execute` never throws (all reference variants) terminates normally, with
`runAll` returning no outcome information (`void`). -/
theorem runAll_no_trap (t : MTask) (m : String) (tasks : List MTask)
    (hf : execFault t.body = some m)
    (href : ∀ u ∈ tasks, execFault u.body = none) :
    runAllCode [t] = Except.error m ∧ runAllCode tasks = Except.ok () := by
  constructor
  · unfold runAllCode workerRun
    simp [hf]
  · exact runAllCode_ok tasks href

/-- Witness for the amended C3: the throwing task against the three
reference tasks of `main()`. -/
theorem runAll_no_trap_witness :
    execFault bomberTask.body = some "boom" ∧
      (∀ u ∈ [printerTask, waiterTask, calculatorTask],
        execFault u.body = none) ∧
      (runAllCode [bomberTask] = Except.error "boom" ∧
        runAllCode [printerTask, waiterTask, calculatorTask] =
          Except.ok ()) :=
  ⟨rfl, by decide,
    runAll_no_trap bomberTask "boom" [printerTask, waiterTask, calculatorTask]
      rfl (by decide)⟩

/-- One more iteration of the `ComputeTask` loop adds `n + 1` to the
accumulator (with 32-bit wrap). -/
theorem computeRange_succ (n : Nat) :
    computeRange (n + 1) = int32Wrap (computeRange n + ((n : Int) + 1)) := by
  unfold computeRange
  rw [List.range_succ, List.foldl_append]
  rfl

/-- `int32Wrap` is the identity on values that fit in a 32-bit `int`. -/
theorem int32Wrap_eq_self (x : Int) (h0 : 0 ≤ x) (h1 : x < 2 ^ 31) :
    int32Wrap x = x := by
  unfold int32Wrap
  rw [Int.emod_eq_of_lt (by omega) (by omega)]
  omega

/-- Defining equation of `tri` at a successor. -/
theorem tri_succ (n : Nat) : tri (n + 1) = tri n + (n + 1) := rfl

/-- Gauss closed form for the triangular numbers. -/
theorem two_mul_tri (n : Nat) : 2 * tri n = n * (n + 1) := by
  induction n with
  | zero => rfl
  | succ m ih =>
    calc 2 * tri (m + 1) = 2 * tri m + 2 * (m + 1) := by rw [tri_succ]; ring
    _ = m * (m + 1) + 2 * (m + 1) := by rw [ih]
    _ = (m + 1) * (m + 1 + 1) := by ring

/-- While the running total fits in `int`, the loop of
`ComputeTask::execute` computes the exact triangular number. -/
theorem computeRange_eq_tri (n : Nat) (h : tri n < 2 ^ 31) :
    computeRange n = (tri n : Int) := by
  induction n with
  | zero => rfl
  | succ m ih =>
    have hm : tri m < 2 ^ 31 := by rw [tri_succ] at h; omega
    rw [computeRange_succ, ih hm]
    have hsum : (tri m : Int) + ((m : Int) + 1) = (tri (m + 1) : Int) := by
      rw [tri_succ]
      push_cast
      ring
    rw [hsum]
    exact int32Wrap_eq_self _ (by positivity) (by exact_mod_cast h)

/-- C9 (amended): for every configured limit `N` whose triangular sum fits
in a 32-bit `int` (`tri N < 2^31`, i.e. every `N ≤ 65535`),
`ComputeTask::execute` deterministically computes exactly the sum of the
integers `1..N`; in particular for limit 100 the computed sum is 5050 on
every run. -/
theorem computeSum_eq_tri (n : Nat) (h : tri n < 2 ^ 31) :
    computeSum ((n : Nat) : Int) = (tri n : Int) := by
  unfold computeSum
  rw [Int.toNat_natCast]
  exact computeRange_eq_tri n h

/-- Witness for the amended C9 at limit 100: the computed sum is 5050. -/
theorem computeSum_eq_tri_witness :
    tri 100 < 2 ^ 31 ∧ computeSum ((100 : Nat) : Int) = (tri 100 : Int) ∧
      tri 100 = 5050 :=
  ⟨by decide, computeSum_eq_tri 100 (by decide), by decide⟩

/-- Value of the last in-range triangular number. -/
theorem tri_65535 : tri 65535 = 2147450880 := by
  have h := two_mul_tri 65535
  norm_num at h
  omega

/-- Value of the first out-of-range triangular number. -/
theorem tri_65536 : tri 65536 = 2147516416 := by
  have h := two_mul_tri 65536
  norm_num at h
  omega

/-- C9 counterexample: at limit 65536 the 32-bit accumulator overflows —
`ComputeTask::execute` yields −2147450880, not the sum 2147516416 of the
integers 1..65536, so the claim does not hold for every configured
limit. -/
theorem computeSum_overflow_cex :
    computeSum ((65536 : Nat) : Int) = -2147450880 ∧
      (tri 65536 : Int) = 2147516416 ∧
      computeSum ((65536 : Nat) : Int) ≠ (tri 65536 : Int) := by
  have h1 : computeRange 65535 = (tri 65535 : Int) :=
    computeRange_eq_tri 65535 (by rw [tri_65535]; norm_num)
  have h3 : computeRange 65536 = -2147450880 := by
    have h2 := computeRange_succ 65535
    rw [h1, tri_65535] at h2
    rw [h2]
    norm_num [int32Wrap]
  have h4 : computeSum ((65536 : Nat) : Int) = computeRange 65536 := by
    unfold computeSum
    rw [Int.toNat_natCast]
  have h5 : (tri 65536 : Int) = 2147516416 := by
    rw [tri_65536]
    norm_num
  refine ⟨by rw [h4, h3], h5, ?_⟩
  rw [h4, h3, h5]
  decide


/-!  Output model under `coutMutex`.

Each `operator<<` call (and `std::endl`) is one atomic write of one
contiguous piece.  The `[START]`/`[END]` emissions perform their three
insertions while holding `coutMutex`; the writes inside `execute` bodies
hold no lock.  The mutex gives mutual exclusion only between its holders:
while one worker is inside an emission, the other worker's emission cannot
start, but its unprotected `execute` writes can still land between the
emission's pieces. -/

/-- One write call by a worker: `free` is an insertion performed without
`coutMutex` (the `execute` bodies, MTS.cpp:41,52,68); `locked` is one
critical section — the consecutive insertions performed while holding
`coutMutex` (the event emissions, MTS.cpp:93-96 and 113-116). -/
inductive Block
  | free (piece : String)
  | locked (pieces : List String)
deriving DecidableEq, Repr

/-- The three insertions of the `"[START] name"` emission
(`"[START] " << name << std::endl`), performed under `coutMutex`. -/
def startPieces (n : String) : List String := ["[START] ", n, "\n"]

/-- The three insertions of the `"[END] name"` emission
(`"[END] " << name << std::endl`), performed under `coutMutex`. -/
def finishPieces (n : String) : List String := ["[END] ", n, "\n"]

/-- The write sequence of one `PrintTask::execute` call: two unprotected
insertions. -/
def printBodyBlocks : List Block := (execPieces .print).map Block.free

/-- State of a capture in progress: `oa`/`ob` hold the unwritten rest of
an open critical section of worker A resp. worker B (both sections need
`coutMutex`, so at most one is ever open); `as`/`bs` are the workers'
remaining write sequences. -/
structure SchedState where
  oa : Option (List String) := none
  ob : Option (List String) := none
  as : List Block
  bs : List Block
deriving DecidableEq, Repr

/-- Worker A, inside its open critical section, writes the section's next
piece. -/
def contA (s : SchedState) (x : String) : List SchedState :=
  match s.oa with
  | some (r :: rs) =>
    if r = x then [{ s with oa := if rs.isEmpty then none else some rs }]
    else []
  | _ => []

/-- Worker B, inside its open critical section, writes the section's next
piece. -/
def contB (s : SchedState) (x : String) : List SchedState :=
  match s.ob with
  | some (r :: rs) =>
    if r = x then [{ s with ob := if rs.isEmpty then none else some rs }]
    else []
  | _ => []

/-- Worker A performs an unprotected write: it needs no mutex, so it may
happen even while worker B's critical section is open — only A itself must
not be mid-section. -/
def freeA (s : SchedState) (x : String) : List SchedState :=
  match s.oa, s.as with
  | none, .free p :: as' => if p = x then [{ s with as := as' }] else []
  | _, _ => []

/-- Worker B performs an unprotected write, possible while worker A's
critical section is open. -/
def freeB (s : SchedState) (x : String) : List SchedState :=
  match s.ob, s.bs with
  | none, .free p :: bs' => if p = x then [{ s with bs := bs' }] else []
  | _, _ => []

/-- Worker A acquires `coutMutex` and writes the first piece of a critical
section: possible only while no section is open. -/
def openA (s : SchedState) (x : String) : List SchedState :=
  match s.oa, s.ob, s.as with
  | none, none, .locked (p :: ps) :: as' =>
    if p = x then
      [{ s with oa := if ps.isEmpty then none else some ps, as := as' }]
    else []
  | _, _, _ => []

/-- Worker B acquires `coutMutex` and writes the first piece of a critical
section: possible only while no section is open. -/
def openB (s : SchedState) (x : String) : List SchedState :=
  match s.oa, s.ob, s.bs with
  | none, none, .locked (p :: ps) :: bs' =>
    if p = x then
      [{ s with ob := if ps.isEmpty then none else some ps, bs := bs' }]
    else []
  | _, _, _ => []

/-- All successor states after the capture's next piece `x`. -/
def schedSteps (s : SchedState) (x : String) : List SchedState :=
  contA s x ++ contB s x ++ freeA s x ++ freeB s x ++ openA s x ++ openB s x

/-- Whether the remaining capture `c` can be produced from state `s`: the
capture is complete when both workers have written everything and no
section is open; otherwise some scheduling step explains the next
piece. -/
def serializesAux (s : SchedState) : List String → Bool
  | [] => s.oa.isNone && s.ob.isNone && s.as.isEmpty && s.bs.isEmpty
  | x :: c => (schedSteps s x).any fun t => serializesAux t c

/-- Whether `c` is a capture the two workers' write sequences `as` and
`bs` can produce under `coutMutex` semantics. -/
def serializes (as bs : List Block) (c : List String) : Bool :=
  serializesAux { as := as, bs := bs } c

/-- Split a character stream into its lines at `'\n'`, keeping the
(possibly empty) final segment. -/
def splitLinesAux : List Char → List Char → List (List Char)
  | [], acc => [acc.reverse]
  | ch :: cs, acc =>
    if ch = '\n' then acc.reverse :: splitLinesAux cs []
    else splitLinesAux cs (ch :: acc)

/-- The lines of the text captured from a serialized piece sequence. -/
def capturedLines (pieces : List String) : List (List Char) :=
  splitLinesAux ((pieces.map String.data).flatten) []

/-- A capture two workers can produce: worker 1 runs `PrintTask::execute`
(two unprotected insertions), worker 2 performs its `[START]` emission
under the mutex; the whole emission lands between worker 1's text and
worker 1's newline — legal, since unprotected writes take no lock. -/
def cexTrace : List String :=
  ["PrintTask: Hello World", "[START] ", "Waiter", "\n", "\n"]

/-- The complete lines either worker of the counterexample scenario
produces on its own. -/
def cexOwnLines : List (List Char) :=
  [("PrintTask: Hello World").data, ("[START] Waiter").data]

/-- C6 counterexample: a capture of `PrintTask`'s unprotected `execute`
output with a sibling worker's `[START]` emission contains the line
`"PrintTask: Hello World[START] Waiter"` — a mid-line merge of two
workers, not a complete string produced by a single worker.  Only the
`[START]`/`[END]` emissions hold `coutMutex`; `execute` bodies write
without it, so the mutex cannot keep their lines apart. -/
theorem output_interleave_cex :
    serializes printBodyBlocks [Block.locked (startPieces "Waiter")]
        cexTrace = true ∧
      ("PrintTask: Hello World[START] Waiter").data ∈ capturedLines cexTrace ∧
      ("PrintTask: Hello World[START] Waiter").data ∉ cexOwnLines :=
  ⟨by decide, by decide, by decide⟩

/-- With worker A mid-emission and worker B left only with a write that
itself needs the mutex (or nothing), the only scheduling step is the next
piece of A's emission. -/
theorem schedSteps_lockedA (r : String) (rs : List String) (bs : List Block)
    (hb : bs = [] ∨ ∃ qs, bs = [Block.locked qs]) (x : String) :
    schedSteps ⟨some (r :: rs), none, [], bs⟩ x =
      if r = x then [⟨if rs.isEmpty then none else some rs, none, [], bs⟩]
      else [] := by
  rcases hb with rfl | ⟨qs, rfl⟩ <;>
    · simp only [schedSteps, contA, contB, freeA, freeB, openA, openB]
      split <;> simp

/-- Mirror image of `schedSteps_lockedA` for worker B mid-emission. -/
theorem schedSteps_lockedB (r : String) (rs : List String) (as : List Block)
    (ha : as = [] ∨ ∃ ps, as = [Block.locked ps]) (x : String) :
    schedSteps ⟨none, some (r :: rs), as, []⟩ x =
      if r = x then [⟨none, if rs.isEmpty then none else some rs, as, []⟩]
      else [] := by
  rcases ha with rfl | ⟨ps, rfl⟩ <;>
    · simp only [schedSteps, contA, contB, freeA, freeB, openA, openB]
      split <;> simp

/-- While worker A holds `coutMutex` and worker B's only possible write
itself needs the mutex, the capture continues with exactly the rest of A's
emission before anything else can happen. -/
theorem serializes_drainA (bs : List Block)
    (hb : bs = [] ∨ ∃ qs, bs = [Block.locked qs]) :
    ∀ ps c, ps ≠ [] →
      serializesAux ⟨some ps, none, [], bs⟩ c = true →
      ∃ c', c = ps ++ c' ∧ serializesAux ⟨none, none, [], bs⟩ c' = true := by
  intro ps
  induction ps with
  | nil => intro c h0 _; exact absurd rfl h0
  | cons r rs ih =>
    intro c _ h
    cases c with
    | nil =>
      exfalso
      simp [serializesAux] at h
    | cons x c =>
      simp only [serializesAux] at h
      rw [schedSteps_lockedA r rs bs hb x] at h
      by_cases hrx : r = x
      · rw [if_pos hrx] at h
        simp only [List.any_cons, List.any_nil, Bool.or_false] at h
        cases rs with
        | nil =>
          refine ⟨c, ?_, h⟩
          rw [hrx]
          rfl
        | cons r2 rs2 =>
          rcases ih c (by simp) h with ⟨c', rfl, hrest⟩
          exact ⟨c', by rw [hrx]; rfl, hrest⟩
      · rw [if_neg hrx] at h
        simp at h

/-- Mirror image of `serializes_drainA` for worker B's open emission. -/
theorem serializes_drainB (as : List Block)
    (ha : as = [] ∨ ∃ ps, as = [Block.locked ps]) :
    ∀ qs c, qs ≠ [] →
      serializesAux ⟨none, some qs, as, []⟩ c = true →
      ∃ c', c = qs ++ c' ∧ serializesAux ⟨none, none, as, []⟩ c' = true := by
  intro qs
  induction qs with
  | nil => intro c h0 _; exact absurd rfl h0
  | cons r rs ih =>
    intro c _ h
    cases c with
    | nil =>
      exfalso
      simp [serializesAux] at h
    | cons x c =>
      simp only [serializesAux] at h
      rw [schedSteps_lockedB r rs as ha x] at h
      by_cases hrx : r = x
      · rw [if_pos hrx] at h
        simp only [List.any_cons, List.any_nil, Bool.or_false] at h
        cases rs with
        | nil =>
          refine ⟨c, ?_, h⟩
          rw [hrx]
          rfl
        | cons r2 rs2 =>
          rcases ih c (by simp) h with ⟨c', rfl, hrest⟩
          exact ⟨c', by rw [hrx]; rfl, hrest⟩
      · rw [if_neg hrx] at h
        simp at h

/-- From the all-done state only the empty capture is accepted. -/
theorem serializes_nil_nil :
    ∀ c, serializesAux ⟨none, none, [], []⟩ c = true → c = [] := by
  intro c h
  cases c with
  | nil => rfl
  | cons x c =>
    exfalso
    simp only [serializesAux] at h
    have hsteps : schedSteps ⟨none, none, [], []⟩ x = [] := by
      simp [schedSteps, contA, contB, freeA, freeB, openA, openB]
    rw [hsteps] at h
    simp at h

/-- When only worker B's emission remains, the capture is exactly that
emission. -/
theorem serializes_locked_rightOnly (q0 : String) (qs : List String) :
    ∀ c, serializesAux ⟨none, none, [], [Block.locked (q0 :: qs)]⟩ c = true →
      c = q0 :: qs := by
  intro c h
  cases c with
  | nil => simp [serializesAux] at h
  | cons x c =>
    simp only [serializesAux] at h
    have hsteps : schedSteps ⟨none, none, [], [Block.locked (q0 :: qs)]⟩ x =
        if q0 = x then
          [⟨none, if qs.isEmpty then none else some qs, [], []⟩]
        else [] := by
      simp only [schedSteps, contA, contB, freeA, freeB, openA, openB]
      split <;> simp
    rw [hsteps] at h
    by_cases hq : q0 = x
    · rw [if_pos hq] at h
      simp only [List.any_cons, List.any_nil, Bool.or_false] at h
      cases qs with
      | nil =>
        rw [serializes_nil_nil c h, hq]
      | cons q1 qs2 =>
        rcases serializes_drainB [] (Or.inl rfl) (q1 :: qs2) c (by simp) h with
          ⟨c', rfl, hrest⟩
        rw [serializes_nil_nil c' hrest, hq]
        simp
    · rw [if_neg hq] at h
      simp at h

/-- When only worker A's emission remains, the capture is exactly that
emission. -/
theorem serializes_locked_leftOnly (p0 : String) (ps : List String) :
    ∀ c, serializesAux ⟨none, none, [Block.locked (p0 :: ps)], []⟩ c = true →
      c = p0 :: ps := by
  intro c h
  cases c with
  | nil => simp [serializesAux] at h
  | cons x c =>
    simp only [serializesAux] at h
    have hsteps : schedSteps ⟨none, none, [Block.locked (p0 :: ps)], []⟩ x =
        if p0 = x then
          [⟨if ps.isEmpty then none else some ps, none, [], []⟩]
        else [] := by
      simp only [schedSteps, contA, contB, freeA, freeB, openA, openB]
      split <;> simp
    rw [hsteps] at h
    by_cases hp : p0 = x
    · rw [if_pos hp] at h
      simp only [List.any_cons, List.any_nil, Bool.or_false] at h
      cases ps with
      | nil =>
        rw [serializes_nil_nil c h, hp]
      | cons p1 ps2 =>
        rcases serializes_drainA [] (Or.inl rfl) (p1 :: ps2) c (by simp) h with
          ⟨c', rfl, hrest⟩
        rw [serializes_nil_nil c' hrest, hp]
        simp
    · rw [if_neg hp] at h
      simp at h

/-- Two mutex-protected emissions can only serialize one wholly before the
other: `coutMutex` keeps them from overlapping. -/
theorem locked_blocks_exclusive (p q : List String) (hp : p ≠ [])
    (hq : q ≠ []) (c : List String)
    (h : serializes [Block.locked p] [Block.locked q] c = true) :
    c = p ++ q ∨ c = q ++ p := by
  rcases p with _ | ⟨p0, ps⟩
  · exact absurd rfl hp
  rcases q with _ | ⟨q0, qs⟩
  · exact absurd rfl hq
  unfold serializes at h
  cases c with
  | nil => simp [serializesAux] at h
  | cons x c =>
    simp only [serializesAux] at h
    have hsteps : schedSteps ⟨none, none, [Block.locked (p0 :: ps)],
        [Block.locked (q0 :: qs)]⟩ x =
        (if p0 = x then
          [⟨if ps.isEmpty then none else some ps, none, [],
            [Block.locked (q0 :: qs)]⟩]
        else []) ++
        (if q0 = x then
          [⟨none, if qs.isEmpty then none else some qs,
            [Block.locked (p0 :: ps)], []⟩]
        else []) := by
      simp only [schedSteps, contA, contB, freeA, freeB, openA, openB]
      simp
    rw [hsteps] at h
    rw [List.any_eq_true] at h
    rcases h with ⟨s', hs', hacc⟩
    rcases List.mem_append.1 hs' with hmem | hmem
    · by_cases hp0 : p0 = x
      · rw [if_pos hp0] at hmem
        have hs'eq : s' = ⟨if ps.isEmpty then none else some ps, none, [],
            [Block.locked (q0 :: qs)]⟩ := by simpa using hmem
        subst hs'eq
        left
        cases ps with
        | nil =>
          rw [serializes_locked_rightOnly q0 qs c hacc, hp0]
          simp
        | cons p1 ps2 =>
          rcases serializes_drainA [Block.locked (q0 :: qs)]
              (Or.inr ⟨q0 :: qs, rfl⟩) (p1 :: ps2) c (by simp) hacc with
            ⟨c', rfl, hrest⟩
          rw [serializes_locked_rightOnly q0 qs c' hrest, hp0]
          simp
      · rw [if_neg hp0] at hmem
        simp at hmem
    · by_cases hq0 : q0 = x
      · rw [if_pos hq0] at hmem
        have hs'eq : s' = ⟨none, if qs.isEmpty then none else some qs,
            [Block.locked (p0 :: ps)], []⟩ := by simpa using hmem
        subst hs'eq
        right
        cases qs with
        | nil =>
          rw [serializes_locked_leftOnly p0 ps c hacc, hq0]
          simp
        | cons q1 qs2 =>
          rcases serializes_drainB [Block.locked (p0 :: ps)]
              (Or.inr ⟨p0 :: ps, rfl⟩) (q1 :: qs2) c (by simp) hacc with
            ⟨c', rfl, hrest⟩
          rw [serializes_locked_leftOnly p0 ps c' hrest, hq0]
          simp
      · rw [if_neg hq0] at hmem
        simp at hmem

/-- C6 (amended): `coutMutex` serializes the event emissions only against
each other — every capture of one worker's `[START]` emission with another
worker's `[END]` emission is one complete emission followed by the other,
never an interleaving of the two — while output written inside `execute`
bodies takes no lock and can merge mid-line with concurrent output,
event lines included. -/
theorem event_emission_mutual_exclusion (n1 n2 : String) (c : List String)
    (h : serializes [Block.locked (startPieces n1)]
        [Block.locked (finishPieces n2)] c = true) :
    c = startPieces n1 ++ finishPieces n2 ∨
      c = finishPieces n2 ++ startPieces n1 :=
  locked_blocks_exclusive (startPieces n1) (finishPieces n2)
    (by simp [startPieces]) (by simp [finishPieces]) c h

/-- Witness for the amended C6: the `Printer` worker's `[START]` emission
serialized with the `Waiter` worker's `[END]` emission. -/
theorem event_emission_mutual_exclusion_witness :
    serializes [Block.locked (startPieces "Printer")]
        [Block.locked (finishPieces "Waiter")]
        (startPieces "Printer" ++ finishPieces "Waiter") = true ∧
      (startPieces "Printer" ++ finishPieces "Waiter" =
          startPieces "Printer" ++ finishPieces "Waiter" ∨
        startPieces "Printer" ++ finishPieces "Waiter" =
          finishPieces "Waiter" ++ startPieces "Printer") :=
  ⟨by decide,
    event_emission_mutual_exclusion "Printer" "Waiter"
      (startPieces "Printer" ++ finishPieces "Waiter") (by decide)⟩
